import Mathlib

/-!
# Verification of the ModularMusicVisualizer audio/frame-pipeline core

Shallow embedding, in Lean 4, of the core routines of the
Tremeschin/ModularMusicVisualizer repository that the specification
talks about:

* `FFmpegWrapper.write_to_pipe` / `FFmpegWrapper.pipe_writer_loop`
  (src/mmv/common/wrappers/wrap_ffmpeg.py): the index-ordered frame
  pipe feeding the encoder subprocess.
* `AudioProcessing.get_info_on_audio_slice`, `AudioProcessing.resample`,
  `AudioProcessing.slice_audio` (src/mmv/common/cmn_audio.py): per-step
  audio feature analysis, resampling and file slicing.
* `ValuesInterpolator.add_interpolater` / `ValuesInterpolator.next`
  (src/run_shaders.py): the value interpolation engine.

Python floats are modelled as exact rationals (`ℚ`); a NaN produced by
numpy on empty input is modelled as `Option.none` and propagated through
arithmetic.  External library calls that are not part of the repository
(libsamplerate sinc resampling, the FFT of `cmn_fourier`) are taken as
parameters of the embedding, so the theorems hold for every behaviour
of those collaborators.
-/

namespace MMV

/-! ## FramePipeWriter: `FFmpegWrapper` frame pipe

`self.images_to_pipe` is a Python dict from frame index to payload; we
model it as an association list where assignment `d[k] = v` overwrites
an existing binding in place and otherwise appends, `k in d.keys()` is
`lookup ≠ none`, and `d.pop(k)` removes the binding. -/

/-- Python dict membership test: is index `i` bound in the buffer? -/
def dictMem {α : Type} (buf : List (ℕ × α)) (i : ℕ) : Bool :=
  buf.any (fun kv => kv.1 = i)

/-- Python dict read: the payload bound to index `i`, if any. -/
def dictGet {α : Type} (buf : List (ℕ × α)) (i : ℕ) : Option α :=
  (buf.find? (fun kv => kv.1 = i)).map (fun kv => kv.2)

/-- Python dict assignment `d[i] = img`: overwrite in place or append. -/
def dictSet {α : Type} (buf : List (ℕ × α)) (i : ℕ) (img : α) : List (ℕ × α) :=
  if dictMem buf i then
    buf.map (fun kv => if kv.1 = i then (i, img) else kv)
  else
    buf ++ [(i, img)]

/-- Python `d.pop(i)` (the removal part): drop the binding of `i`. -/
def dictPop {α : Type} (buf : List (ℕ × α)) (i : ℕ) : List (ℕ × α) :=
  buf.filter (fun kv => ¬ kv.1 = i)

/-- State of the `FFmpegWrapper` frame pipe: the `images_to_pipe`
buffer, the writer loop's `count` (next index to write), and the bytes
already written to the encoder's stdin, in order. -/
structure PipeState (α : Type) where
  images_to_pipe : List (ℕ × α)
  count : ℕ
  written : List α
deriving DecidableEq

/-- The pipe state right after `configure_encoding` / `pipe_writer_loop`
start: empty buffer, `count = 0`, nothing written. -/
def initPipeState (α : Type) : PipeState α :=
  { images_to_pipe := [], count := 0, written := [] }

/-- `FFmpegWrapper.write_to_pipe(index, image)`, the state change:
`self.images_to_pipe[index] = image`.  (The preceding `while` only
sleeps while the buffer is over `max_images_on_pipe_buffer`; it does
not modify state, so backpressure is reflected in *when* a submit event
occurs in a trace, not in the state change itself.) -/
def write_to_pipe {α : Type} (s : PipeState α) (index : ℕ) (image : α) : PipeState α :=
  { s with images_to_pipe := dictSet s.images_to_pipe index image }

/-- One iteration of the `while not self.stop_piping` body of
`FFmpegWrapper.pipe_writer_loop`: if `self.count` is among the buffered
keys, pop that image, write it to the subprocess stdin and increment
`self.count`; otherwise sleep (no state change). -/
def pipe_writer_iteration {α : Type} (s : PipeState α) : PipeState α :=
  match dictGet s.images_to_pipe s.count with
  | some image =>
      { images_to_pipe := dictPop s.images_to_pipe s.count
        count := s.count + 1
        written := s.written ++ [image] }
  | none => s

/-- An event of an interleaved execution: a renderer worker calling
`write_to_pipe`, or the writer loop performing one iteration. -/
inductive PipeEvent (α : Type) where
  | submit (index : ℕ) (image : α)
  | tryWrite
deriving DecidableEq

/-- Run a trace of interleaved submit / writer-loop events. -/
def runPipe {α : Type} (s : PipeState α) (events : List (PipeEvent α)) : PipeState α :=
  events.foldl
    (fun s e =>
      match e with
      | PipeEvent.submit i img => write_to_pipe s i img
      | PipeEvent.tryWrite => pipe_writer_iteration s)
    s

/-- The submissions occurring in a trace, in submission order. -/
def submissionsOf {α : Type} (events : List (PipeEvent α)) : List (ℕ × α) :=
  events.filterMap
    (fun e =>
      match e with
      | PipeEvent.submit i img => some (i, img)
      | PipeEvent.tryWrite => none)

/-- Invariant of the frame pipe, relative to the intended payload `f i`
of each index `i`: every buffered frame carries its index's payload,
and what has been written so far is exactly `f 0, …, f (count - 1)`. -/
def PipeInv {α : Type} (f : ℕ → α) (s : PipeState α) : Prop :=
  (∀ p ∈ s.images_to_pipe, p.2 = f p.1) ∧
    s.written = (List.range s.count).map f

/-! ## AudioProcessing (src/mmv/common/cmn_audio.py)

Samples are exact rationals.  numpy's NaN (produced e.g. by
`np.median` of an empty array) is `Option.none`, and arithmetic on
possibly-NaN values propagates `none`. -/

/-- Python `round(x, 8)` uses round-half-to-even; this is the integer
rounding. -/
def pythonRound (x : ℚ) : ℤ :=
  if x - ⌊x⌋ < 1 / 2 then ⌊x⌋
  else if 1 / 2 < x - ⌊x⌋ then ⌊x⌋ + 1
  else if ⌊x⌋ % 2 = 0 then ⌊x⌋ else ⌊x⌋ + 1

/-- Python `round(x, 8)`: round half-to-even at the 8th decimal. -/
def round8 (x : ℚ) : ℚ :=
  (pythonRound (x * 10 ^ 8) : ℚ) / 10 ^ 8

/-- Insert into a sorted list (ascending). -/
def insertSorted (x : ℚ) : List ℚ → List ℚ
  | [] => [x]
  | y :: ys => if x ≤ y then x :: y :: ys else y :: insertSorted x ys

/-- Sort a list of rationals ascending (the order `np.median` sorts
its input in; for the total order on ℚ the sorted list is unique, so
the choice of sorting algorithm is irrelevant). -/
def sortRat (l : List ℚ) : List ℚ := l.foldr insertSorted []

/-- `np.median`: sort, then take the middle element (odd length) or
the mean of the two middle elements (even length); NaN (`none`) on an
empty array. -/
def npMedian (l : List ℚ) : Option ℚ :=
  if l.length = 0 then none
  else
    let s := sortRat l
    let n := l.length
    if n % 2 = 1 then some (s.getD (n / 2) 0)
    else some ((s.getD (n / 2 - 1) 0 + s.getD (n / 2) 0) / 2)

/-- Python `sum` over possibly-NaN values (NaN absorbs). -/
def nanSum (l : List (Option ℚ)) : Option ℚ :=
  l.foldl
    (fun acc x =>
      match acc, x with
      | some a, some b => some (a + b)
      | _, _ => none)
    (some 0)

/-- The `average_amplitudes` yield of
`AudioProcessing.get_info_on_audio_slice`: the median of the absolute
values of each of the two channels is appended, then their sum divided
by two as the mono entry, and all three are rounded to 8 decimals. -/
def get_info_average_amplitudes (audio_slice : List ℚ × List ℚ) : List (Option ℚ) :=
  let amps := [npMedian (audio_slice.1.map (fun x => |x|)),
               npMedian (audio_slice.2.map (fun x => |x|))]
  let amps := amps ++ [(nanSum amps).map (fun s => s / 2)]
  amps.map (fun v => v.map round8)

/-- The specification's claimed mono amplitude: the median of the
absolute values of `mono = (left + right) / 2` (written from the
spec's words, to be compared with the source's computation). -/
def specMonoMedianAmplitude (left right : List ℚ) : Option ℚ :=
  npMedian ((List.zipWith (fun a b => (a + b) / 2) left right).map (fun x => |x|))

/-- One entry of `self.config` in `AudioProcessing`: a target
resampling rate and the `[start_freq, end_freq]` range of interest. -/
structure BandConfig where
  sample_rate : ℚ
  start_freq : ℚ
  end_freq : ℚ
deriving DecidableEq

/-- Modelled from the spec: `DataUtils.list_items_in_between`
(`cmn_functions`/`DataUtils` is not under src/; the spec says "for
every note frequency inside [start_freq, end_freq]"): the items of the
list lying in the closed range. -/
def list_items_in_between (l : List ℚ) (start stop : ℚ) : List ℚ :=
  l.filter (fun x => decide (start ≤ x) && decide (x ≤ stop))

/-- Modelled from the spec: `Functions.value_on_line_of_two_points`
(`cmn_functions` is not under src/; the spec calls it "a fixed
log-linear mapping between bin frequency and an empirical flatten
scalar"): the y-value at `get_x` on the straight line through
`(Xa, Ya)` and `(Xb, Yb)`. -/
def value_on_line_of_two_points (Xa Ya Xb Yb get_x : ℚ) : ℚ :=
  Ya + (Yb - Ya) * ((get_x - Xa) / (Xb - Xa))

/-- `np.argmin`: index of the first minimal element; `none` on an
empty array (numpy raises `ValueError` there). -/
def npArgmin (l : List ℚ) : Option ℕ :=
  match l with
  | [] => none
  | x :: xs =>
      some
        (xs.foldl
          (fun (acc : ℕ × ℚ × ℕ) y =>
            if y < acc.2.1 then (acc.2.2 + 1, y, acc.2.2 + 1)
            else (acc.1, acc.2.1, acc.2.2 + 1))
          (0, x, 0)).1

/-- `AudioProcessing.find_nearest(array, value)`: the index of the
element of `array` nearest to `value` (first match), and that element.
`none` models the `ValueError` numpy raises on an empty array. -/
def find_nearest (array : List ℚ) (value : ℚ) : Option (ℕ × ℚ) :=
  match npArgmin (array.map (fun a => |a - value|)) with
  | none => none
  | some index => some (index, array.getD index 0)

/-- `AudioProcessing.resample`: the identity when
`new_sample_rate == original_sample_rate`; otherwise it delegates to
libsamplerate (`samplerate.resample`, an external library, taken here
as the parameter `sinc` applied to the data and the rate ratio). -/
def resample (sinc : List ℚ → ℚ → List ℚ) (data : List ℚ)
    (original_sample_rate new_sample_rate : ℚ) : List ℚ :=
  if new_sample_rate = original_sample_rate then data
  else sinc data (new_sample_rate / original_sample_rate)

/-- The body of the innermost `for freq in wanted_freqs` loop of
`get_info_on_audio_slice`: find the FFT bin nearest to `freq`, read
its magnitude (`none` models the `IndexError` when the value array is
shorter), scale it by the flatten scalar evaluated at the bin *index*
(the source passes `get_x = nearest[0]`), times 6. -/
def scaled_magnitude (binned : List ℚ × List ℚ) (freq : ℚ) : Option ℚ := do
  let nearest ← find_nearest binned.1 freq
  let value ← binned.2[nearest.1]?
  pure (|value| * value_on_line_of_two_points 20 (1 / 5) 20000 62 (nearest.1 : ℚ) * 6)

/-- The `fft` yield of `AudioProcessing.get_info_on_audio_slice`:
for each channel of the slice (outer loop `for data in audio_slice`),
for each configured band (inner loop `for _, value in
self.config.items()`), resample, FFT (`binned_fft` of the missing
`cmn_fourier` module, taken as the parameter `bf` mapping resampled
data, target rate and original rate to a `[frequencies, values]`
pair), and append one scaled magnitude per wanted piano-key frequency
to the accumulator `processed`.  `none` models a Python exception in
the loop body. -/
def get_info_fft (sinc : List ℚ → ℚ → List ℚ)
    (bf : List ℚ → ℚ → ℚ → List ℚ × List ℚ)
    (piano_keys : List ℚ) (config : List BandConfig)
    (audio_slice : List ℚ × List ℚ) (original_sample_rate : ℚ) :
    Option (List ℚ) :=
  [audio_slice.1, audio_slice.2].foldlM
    (fun processed data =>
      config.foldlM
        (fun processed band =>
          (list_items_in_between piano_keys band.start_freq band.end_freq).foldlM
            (fun processed freq =>
              (scaled_magnitude
                (bf (resample sinc data original_sample_rate band.sample_rate)
                  band.sample_rate original_sample_rate) freq).map
                (fun v => processed ++ [v]))
            processed)
        processed)
    []

/-- The per-(channel, band) group of scaled magnitudes, as the spec
describes step 4 of `analyze`: one scaled magnitude per wanted
piano-key frequency of the band. -/
def band_magnitudes (sinc : List ℚ → ℚ → List ℚ)
    (bf : List ℚ → ℚ → ℚ → List ℚ × List ℚ)
    (piano_keys : List ℚ) (original_sample_rate : ℚ)
    (data : List ℚ) (band : BandConfig) : Option (List ℚ) :=
  (list_items_in_between piano_keys band.start_freq band.end_freq).mapM
    (scaled_magnitude
      (bf (resample sinc data original_sample_rate band.sample_rate)
        band.sample_rate original_sample_rate))

/-- The grouping the specification claims for the `fft` sequence:
bands outermost (in declaration order), channels innermost (all
channels of band 1, then all channels of band 2, …). -/
def spec_fft_band_major (sinc : List ℚ → ℚ → List ℚ)
    (bf : List ℚ → ℚ → ℚ → List ℚ × List ℚ)
    (piano_keys : List ℚ) (config : List BandConfig)
    (audio_slice : List ℚ × List ℚ) (original_sample_rate : ℚ) :
    Option (List ℚ) :=
  (config.mapM
    (fun band =>
      ([audio_slice.1, audio_slice.2].mapM
        (fun data =>
          band_magnitudes sinc bf piano_keys original_sample_rate data band)).map
        List.flatten)).map List.flatten

/-- The grouping the source actually produces: channels outermost
(left then right), bands innermost (in declaration order). -/
def spec_fft_channel_major (sinc : List ℚ → ℚ → List ℚ)
    (bf : List ℚ → ℚ → ℚ → List ℚ × List ℚ)
    (piano_keys : List ℚ) (config : List BandConfig)
    (audio_slice : List ℚ × List ℚ) (original_sample_rate : ℚ) :
    Option (List ℚ) :=
  ([audio_slice.1, audio_slice.2].mapM
    (fun data =>
      (config.mapM
        (fun band =>
          band_magnitudes sinc bf piano_keys original_sample_rate data band)).map
        List.flatten)).map List.flatten

/-- Python slicing `l[a:b]` for `0 ≤ a ≤ b` (clamping at the end). -/
def pySlice (l : List ℚ) (a b : ℕ) : List ℚ :=
  (l.drop a).take (b - a)

/-- `AudioProcessing.slice_audio` with a `batch_size` given (the
branch the renderer uses): slice each channel to `[start_cut:end_cut]`
and write it into the front of a `(3, batch_size)` zero array (the
third, mono row stays zero in the source — its assignment is commented
out).  The `average_value` the method also computes is not modelled;
no claim mentions it. -/
def slice_audio (stereo_data : List ℚ × List ℚ) (start_cut end_cut : ℕ)
    (batch_size : ℕ) : List (List ℚ) :=
  let left_slice := pySlice stereo_data.1 start_cut end_cut
  let right_slice := pySlice stereo_data.2 start_cut end_cut
  [left_slice ++ List.replicate (batch_size - left_slice.length) 0,
   right_slice ++ List.replicate (batch_size - right_slice.length) 0,
   List.replicate batch_size 0]

/-- Python `int(x)`: truncation toward zero. -/
def pyInt (x : ℚ) : ℤ :=
  if 0 ≤ x then ⌊x⌋ else -⌊-x⌋

/-- The slice start sample computed by `MMVSkiaCore.run`:
`current_time = max((1/fps) * this_step, 0)`,
`this_time_in_samples = int(current_time * sample_rate)`. -/
def this_time_in_samples (step : ℕ) (fps sample_rate : ℚ) : ℕ :=
  (pyInt (max ((1 / fps) * step) 0 * sample_rate)).toNat

/-! ## ValuesInterpolator (src/run_shaders.py) -/

/-- One named interpolation channel of `ValuesInterpolator`:
`current`, `target` and `ratios` arrays. -/
structure Interpolater where
  current : List ℚ
  target : List ℚ
  ratios : List ℚ
deriving DecidableEq

/-- `np.linspace(a, b, num)`. -/
def linspace (a b : ℚ) (num : ℕ) : List ℚ :=
  if num = 0 then []
  else if num = 1 then [a]
  else (List.range num).map (fun i : ℕ => a + (b - a) * (i : ℚ) / ((num : ℚ) - 1))

/-- `ValuesInterpolator.add_interpolater(name, size, fixed_ratio)`:
zeroed `current` and `target`; `ratios` is `linspace(0, 1, size)` when
no fixed ratio is given, else an array filled with the fixed ratio. -/
def add_interpolater (size : ℕ) (fixed_ratio : Option ℚ) : Interpolater :=
  { current := List.replicate size 0
    target := List.replicate size 0
    ratios :=
      match fixed_ratio with
      | none => linspace 0 1 size
      | some r => List.replicate size r }

/-- The `feed`/`mode` argument pair of `ValuesInterpolator.next`: in
the source `feed` is a scalar for mode `"fill"` and an array for modes
`"replace"` and `"add"`; any other mode string leaves `target`
untouched. -/
inductive Feed where
  | fill (value : ℚ)
  | replace (values : List ℚ)
  | add (values : List ℚ)
  | other
deriving DecidableEq

/-- The new `target` after the mode dispatch at the top of
`ValuesInterpolator.next`. -/
def nextTarget (target : List ℚ) (feed : Feed) : List ℚ :=
  match feed with
  | Feed.fill v => target.map (fun _ => v)
  | Feed.replace l => l
  | Feed.add l => List.zipWith (fun a b => a + b) target l
  | Feed.other => target

/-- `ValuesInterpolator.next(name, feed, mode)`: update `target`, then
`current = current + (target - current) * ratios` elementwise. -/
def interpolater_next (ch : Interpolater) (feed : Feed) : Interpolater :=
  let t := nextTarget ch.target feed
  { current := List.zipWith3 (fun c tv r => c + (tv - c) * r) ch.current t ch.ratios
    target := t
    ratios := ch.ratios }

/-- Size well-formedness of one feed for a channel of size `size`:
array-valued feeds must match the channel size (numpy raises a
broadcast error otherwise). -/
def feedSized (size : ℕ) : Feed → Bool
  | Feed.replace l => l.length = size
  | Feed.add l => l.length = size
  | _ => true

/-- The invariant behind C10: a channel created without a fixed ratio
keeps `linspace 0 1 size` ratios, arrays of length `size`, and `0` as
the first element of `current`. -/
def FrozenHeadInv (size : ℕ) (st : Interpolater) : Prop :=
  st.current.length = size ∧ st.target.length = size ∧
    st.ratios = linspace 0 1 size ∧ st.current[0]? = some 0

lemma dictGet_overwrite {α : Type} (buf : List (ℕ × α)) (i : ℕ) (img : α) :
    dictGet (buf.map (fun kv => if kv.1 = i then (i, img) else kv)) i =
      if dictMem buf i then some img else none := by
  induction buf with
  | nil => simp [dictGet, dictMem]
  | cons hd tl ih =>
      by_cases hhd : hd.1 = i
      · simp [dictGet, dictMem, List.find?_cons, hhd]
      · simp only [dictGet, dictMem, List.map_cons, List.find?_cons, List.any_cons,
          hhd, if_false, decide_eq_true_eq, if_neg, not_false_iff] at ih ⊢
        simp only [hhd, decide_False, Bool.false_or, if_neg, not_false_iff]
        exact ih

lemma dictGet_append_single {α : Type} (buf : List (ℕ × α)) (i : ℕ) (img : α)
    (h : dictMem buf i = false) : dictGet (buf ++ [(i, img)]) i = some img := by
  induction buf with
  | nil => simp [dictGet]
  | cons hd tl ih =>
      simp only [dictMem, List.any_cons, Bool.or_eq_false_iff] at h
      obtain ⟨hhd, htl⟩ := h
      simp only [decide_eq_false_iff_not] at hhd
      simp only [List.cons_append, dictGet, List.find?_cons, hhd, decide_False]
      exact ih htl

/-- Assigning `d[i] = img` makes a later read of key `i` return `img`,
whether or not `i` was bound before. -/
lemma dictGet_dictSet_same {α : Type} (buf : List (ℕ × α)) (i : ℕ) (img : α) :
    dictGet (dictSet buf i img) i = some img := by
  by_cases hmem : dictMem buf i = true
  · rw [dictSet, if_pos hmem, dictGet_overwrite, if_pos hmem]
  · have hmem' : dictMem buf i = false := Bool.not_eq_true _ ▸ hmem
    rw [dictSet, if_neg hmem]
    exact dictGet_append_single buf i img hmem'

lemma pipeInv_init {α : Type} (f : ℕ → α) : PipeInv f (initPipeState α) := by
  constructor
  · intro p hp
    simp [initPipeState] at hp
  · simp [initPipeState]

lemma pipeInv_write_to_pipe {α : Type} (f : ℕ → α) (s : PipeState α) (i : ℕ)
    (hs : PipeInv f s) : PipeInv f (write_to_pipe s i (f i)) := by
  obtain ⟨hbuf, hw⟩ := hs
  refine ⟨?_, hw⟩
  intro p hp
  simp only [write_to_pipe, dictSet] at hp
  split at hp
  · obtain ⟨q, hq, hpq⟩ := List.mem_map.mp hp
    by_cases hqi : q.1 = i
    · simp [hqi] at hpq
      subst hpq
      rfl
    · simp [hqi] at hpq
      subst hpq
      exact hbuf q hq
  · rcases List.mem_append.mp hp with hp | hp
    · exact hbuf p hp
    · have hpi : p = (i, f i) := List.mem_singleton.mp hp
      rw [hpi]

lemma pipeInv_writer_iteration {α : Type} (f : ℕ → α) (s : PipeState α)
    (hs : PipeInv f s) : PipeInv f (pipe_writer_iteration s) := by
  obtain ⟨hbuf, hw⟩ := hs
  cases hget : dictGet s.images_to_pipe s.count with
  | none =>
      simp only [pipe_writer_iteration, hget]
      exact ⟨hbuf, hw⟩
  | some image =>
      simp only [pipe_writer_iteration, hget]
      constructor
      · intro p hp
        exact hbuf p (List.mem_of_mem_filter hp)
      · have himg : image = f s.count := by
          simp only [dictGet, Option.map_eq_some'] at hget
          obtain ⟨kv, hfind, hkv⟩ := hget
          have hmem := List.mem_of_find?_eq_some hfind
          have hpred := List.find?_some hfind
          simp only [decide_eq_true_eq] at hpred
          rw [← hkv, hbuf kv hmem, hpred]
        rw [hw, himg, List.range_succ, List.map_append]
        rfl

lemma pipeInv_runPipe {α : Type} (f : ℕ → α) (events : List (PipeEvent α))
    (hsub : ∀ i img, (i, img) ∈ submissionsOf events → img = f i) :
    ∀ s : PipeState α, PipeInv f s → PipeInv f (runPipe s events) := by
  induction events with
  | nil => intro s hs; exact hs
  | cons e es ih =>
      intro s hs
      have hsub' : ∀ i img, (i, img) ∈ submissionsOf es → img = f i := by
        intro i img hmem
        apply hsub i img
        simp only [submissionsOf, List.filterMap_cons] at hmem ⊢
        cases e with
        | submit j jimg => exact List.mem_cons_of_mem _ hmem
        | tryWrite => exact hmem
      cases e with
      | submit j jimg =>
          have hj : jimg = f j := by
            apply hsub j jimg
            simp [submissionsOf, List.filterMap_cons]
          have : runPipe s (PipeEvent.submit j jimg :: es) =
              runPipe (write_to_pipe s j jimg) es := rfl
          rw [this, hj]
          exact ih hsub' _ (pipeInv_write_to_pipe f s j hs)
      | tryWrite =>
          have : runPipe s (PipeEvent.tryWrite :: es) =
              runPipe (pipe_writer_iteration s) es := rfl
          rw [this]
          exact ih hsub' _ (pipeInv_writer_iteration f s hs)

/-- C1: for every trace in which the submitted frames' indices form a
permutation of `0..N-1` (each index submitted exactly once with its own
payload, in any interleaving with writer-loop iterations), once the
writer loop has written all `N` frames, the sequence written to the
encoder's stdin is `payload 0, payload 1, …, payload (N-1)`: strictly
increasing index order, no gaps, no duplicates. -/
theorem pipe_writes_in_index_order {α : Type} (N : ℕ) (payload : ℕ → α)
    (events : List (PipeEvent α))
    (hperm : (submissionsOf events).Perm
      ((List.range N).map (fun i => (i, payload i))))
    (hdone : (runPipe (initPipeState α) events).count = N) :
    (runPipe (initPipeState α) events).written =
      (List.range N).map payload := by
  have hsub : ∀ i img, (i, img) ∈ submissionsOf events → img = payload i := by
    intro i img hmem
    have hmem' := hperm.mem_iff.mp hmem
    obtain ⟨a, _, ha⟩ := List.mem_map.mp hmem'
    obtain ⟨ha1, ha2⟩ := Prod.mk.injEq _ _ _ _ ▸ ha
    rw [← ha2, ha1]
  have hinv := pipeInv_runPipe payload events hsub (initPipeState α)
    (pipeInv_init payload)
  rw [hinv.2, hdone]

/-- Witness for C1: the spec's own scenario, submission order `3,1,0,2`
for `N = 4`, interleaved with writer iterations, writes the payloads in
index order `0,1,2,3`. -/
theorem pipe_writes_in_index_order_witness :
    (runPipe (initPipeState ℕ)
      [PipeEvent.submit 3 30, PipeEvent.submit 1 10, PipeEvent.tryWrite,
       PipeEvent.submit 0 0, PipeEvent.tryWrite, PipeEvent.tryWrite,
       PipeEvent.submit 2 20, PipeEvent.tryWrite, PipeEvent.tryWrite]).written =
      (List.range 4).map (fun i => i * 10) :=
  pipe_writes_in_index_order 4 (fun i => i * 10) _ (by decide) (by decide)

/-- C5 counterexample: `write_to_pipe` has no duplicate-index check.
Submitting index `0` with payload `10` and then again with payload `20`
does not fail; it silently replaces the buffered frame, so the buffered
payload for index `0` is afterwards `20`, not the original `10`. -/
theorem resubmit_overwrites_counterexample :
    dictGet (write_to_pipe (write_to_pipe (initPipeState ℕ) 0 10) 0 20).images_to_pipe 0
      = some 20 ∧ (10 : ℕ) ≠ 20 := by
  decide

/-- C5 amended: a second `write_to_pipe` of an index that is already
buffered and not yet evicted does not fail with any error; it replaces
the buffered payload with the new one (last-write-wins), and the writer
loop's state is otherwise unchanged. -/
theorem resubmit_replaces_buffered_frame {α : Type} (s : PipeState α)
    (i : ℕ) (old new : α)
    (hold : dictGet s.images_to_pipe i = some old) :
    dictGet (write_to_pipe s i new).images_to_pipe i = some new ∧
      (write_to_pipe s i new).count = s.count ∧
      (write_to_pipe s i new).written = s.written :=
  ⟨dictGet_dictSet_same s.images_to_pipe i new, rfl, rfl⟩

lemma length_zipWith3_interp (f : ℚ → ℚ → ℚ → ℚ) :
    ∀ (a b c : List ℚ),
      (List.zipWith3 f a b c).length = min (min a.length b.length) c.length := by
  intro a
  induction a with
  | nil => intro b c; simp [List.zipWith3]
  | cons x xs ih =>
      intro b c
      cases b with
      | nil => simp [List.zipWith3]
      | cons y ys =>
          cases c with
          | nil => simp [List.zipWith3]
          | cons z zs =>
              simp only [List.zipWith3, List.length_cons, ih ys zs]
              omega

lemma zipWith3_ratio_one :
    ∀ (n : ℕ) (c t : List ℚ), c.length = n → t.length = n →
      List.zipWith3 (fun cv tv r => cv + (tv - cv) * r) c t (List.replicate n 1) = t := by
  intro n
  induction n with
  | zero =>
      intro c t hc ht
      rw [List.length_eq_zero] at hc ht
      subst hc
      subst ht
      rfl
  | succ m ih =>
      intro c t hc ht
      cases c with
      | nil => simp at hc
      | cons x xs =>
          cases t with
          | nil => simp at ht
          | cons y ys =>
              simp only [List.replicate_succ, List.zipWith3]
              rw [ih xs ys (by simpa using hc) (by simpa using ht)]
              have hx : x + (y - x) * 1 = y := by ring
              rw [hx]

lemma linspace_length (a b : ℚ) (num : ℕ) : (linspace a b num).length = num := by
  unfold linspace
  split_ifs with h0 h1
  · simp [h0]
  · simp [h1]
  · simp

lemma linspace_head (a b : ℚ) (num : ℕ) (h : 1 ≤ num) :
    (linspace a b num)[0]? = some a := by
  unfold linspace
  split_ifs with h0 h1
  · omega
  · rfl
  · have h2 : 2 ≤ num := by omega
    rw [List.getElem?_map, List.getElem?_range (by omega)]
    simp only [Option.map_some']
    norm_num

lemma nextTarget_length (size : ℕ) (target : List ℚ) (feed : Feed)
    (ht : target.length = size) (hfeed : feedSized size feed = true) :
    (nextTarget target feed).length = size := by
  cases feed with
  | fill v => simpa [nextTarget] using ht
  | replace l => simpa [nextTarget, feedSized] using hfeed
  | add l =>
      simp only [feedSized, decide_eq_true_eq] at hfeed
      simp [nextTarget, ht, hfeed]
  | other => simpa [nextTarget] using ht

lemma frozenHeadInv_init (size : ℕ) (hsize : 1 ≤ size) :
    FrozenHeadInv size (add_interpolater size none) := by
  refine ⟨by simp [add_interpolater], by simp [add_interpolater], rfl, ?_⟩
  simp only [add_interpolater]
  rw [List.getElem?_replicate]
  simp [Nat.lt_of_lt_of_le Nat.zero_lt_one hsize]

lemma frozenHeadInv_step (size : ℕ) (hsize : 1 ≤ size) (st : Interpolater)
    (feed : Feed) (hfeed : feedSized size feed = true)
    (hst : FrozenHeadInv size st) :
    FrozenHeadInv size (interpolater_next st feed) := by
  obtain ⟨hc, ht, hr, hcur0⟩ := hst
  have htlen : (nextTarget st.target feed).length = size :=
    nextTarget_length size st.target feed ht hfeed
  have hrlen : st.ratios.length = size := by rw [hr]; exact linspace_length 0 1 size
  refine ⟨?_, htlen, hr, ?_⟩
  · simp only [interpolater_next, length_zipWith3_interp, hc, htlen, hrlen]
    omega
  · cases hcurc : st.current with
    | nil => rw [hcurc] at hcur0; simp at hcur0
    | cons c0 cs =>
        cases htc : nextTarget st.target feed with
        | nil => rw [htc] at htlen; simp at htlen; omega
        | cons t0 ts =>
            cases hrc : st.ratios with
            | nil => rw [hrc] at hrlen; simp at hrlen; omega
            | cons r0 rs =>
                have hc0 : c0 = 0 := by
                  rw [hcurc] at hcur0
                  simpa using hcur0
                have hr0 : r0 = 0 := by
                  have := linspace_head 0 1 size hsize
                  rw [← hr, hrc] at this
                  simpa using this
                simp only [interpolater_next, hcurc, htc, hrc, List.zipWith3]
                rw [hc0, hr0]
                norm_num

/-- C10 (implicit): a channel created without a fixed ratio gets
`linspace 0 1 size` ratios, whose first element is `0`; hence the
first element of its `current` array stays at its initial value `0`
after any number of `next` calls, whatever well-sized values are fed
in whatever mode. -/
theorem default_ratio_first_element_frozen (size : ℕ) (hsize : 1 ≤ size)
    (feeds : List Feed) (hfeeds : feeds.all (feedSized size) = true) :
    (add_interpolater size none).ratios = linspace 0 1 size ∧
      (add_interpolater size none).ratios[0]? = some 0 ∧
      (feeds.foldl interpolater_next (add_interpolater size none)).current[0]?
        = some 0 := by
  refine ⟨rfl, ?_, ?_⟩
  · show (linspace 0 1 size)[0]? = some 0
    exact linspace_head 0 1 size hsize
  · have main :
        ∀ (fs : List Feed) (st : Interpolater), fs.all (feedSized size) = true →
          FrozenHeadInv size st → FrozenHeadInv size (fs.foldl interpolater_next st) := by
      intro fs
      induction fs with
      | nil => intro st _ hst; exact hst
      | cons fd fds ih =>
          intro st hall hst
          simp only [List.all_cons, Bool.and_eq_true] at hall
          exact ih _ hall.2 (frozenHeadInv_step size hsize st fd hall.1 hst)
    exact (main feeds (add_interpolater size none) hfeeds
      (frozenHeadInv_init size hsize)).2.2.2

/-- Witness for C10 at a concrete channel of size 2, fed once in each
mode. -/
theorem default_ratio_first_element_frozen_witness :
    (add_interpolater 2 none).ratios = linspace 0 1 2 ∧
      (add_interpolater 2 none).ratios[0]? = some 0 ∧
      ([Feed.fill 3, Feed.replace [4, 5], Feed.add [1, 1],
        Feed.other].foldl interpolater_next (add_interpolater 2 none)).current[0]?
        = some 0 :=
  default_ratio_first_element_frozen 2 (by norm_num)
    [Feed.fill 3, Feed.replace [4, 5], Feed.add [1, 1], Feed.other] (by rfl)

/-- C8: one `next` call on a channel whose ratio array is all ones
makes `current` equal to `target` exactly, for every starting value
and every feed. -/
theorem ratio_one_next_reaches_target (ch : Interpolater) (feed : Feed) (n : ℕ)
    (hr : ch.ratios = List.replicate n 1)
    (hc : ch.current.length = n)
    (ht : (nextTarget ch.target feed).length = n) :
    (interpolater_next ch feed).current = (interpolater_next ch feed).target := by
  simp only [interpolater_next]
  rw [hr]
  exact zipWith3_ratio_one n ch.current (nextTarget ch.target feed) hc ht

/-- Witness for C8: a size-3 channel with fixed ratio 1 reaches its
target in one step. -/
theorem ratio_one_next_reaches_target_witness :
    (interpolater_next (add_interpolater 3 (some 1)) (Feed.fill 5)).current
      = (interpolater_next (add_interpolater 3 (some 1)) (Feed.fill 5)).target :=
  ratio_one_next_reaches_target (add_interpolater 3 (some 1)) (Feed.fill 5) 3
    rfl rfl rfl

lemma round8_of_mul_eq_int (x : ℚ) (k : ℤ) (hk : x * 10 ^ 8 = (k : ℚ)) :
    round8 x = x := by
  unfold round8 pythonRound
  rw [hk, Int.floor_intCast]
  have hz : (k : ℚ) - k = 0 := by ring
  rw [hz, if_pos (by norm_num : (0 : ℚ) < 1 / 2)]
  rw [← hk]
  field_simp

/-- C2 counterexample: for the stereo batch `L = [1, -1]`, `R = [1, 1]`
the source's mono average amplitude (third component) is `1` — the
mean of the two channel medians — while the claimed `median(|mono|)`
with `mono = (L+R)/2 = [1, 0]` is `1/2`. -/
theorem average_amplitude_mono_counterexample :
    (get_info_average_amplitudes ([1, -1], [1, 1])).getD 2 none = some 1 ∧
      (specMonoMedianAmplitude [1, -1] [1, 1]).map round8 = some (1 / 2) ∧
      (1 : ℚ) ≠ 1 / 2 := by
  have h1 : round8 (1 : ℚ) = 1 := round8_of_mul_eq_int 1 (10 ^ 8) (by norm_num)
  have h2 : round8 ((1 : ℚ) / 2) = 1 / 2 :=
    round8_of_mul_eq_int (1 / 2) (5 * 10 ^ 7) (by norm_num)
  refine ⟨?_, ?_, by norm_num⟩
  · norm_num [get_info_average_amplitudes, npMedian, sortRat, insertSorted,
      nanSum, h1]
  · norm_num [specMonoMedianAmplitude, npMedian, sortRat, insertSorted, h2]

/-- C2 amended: the first two components of the average-amplitude
triple are the medians of the absolute values of the left and right
channels (rounded to 8 decimals), but the third (mono) component is
the arithmetic mean of those two medians, `(median|L| + median|R|)/2`,
not the median of `|mono|`. -/
theorem average_amplitudes_formula (L R : List ℚ) (mL mR : ℚ)
    (hL : npMedian (L.map (fun x => |x|)) = some mL)
    (hR : npMedian (R.map (fun x => |x|)) = some mR) :
    get_info_average_amplitudes (L, R) =
      [some (round8 mL), some (round8 mR), some (round8 ((mL + mR) / 2))] := by
  simp only [get_info_average_amplitudes, hL, hR, nanSum, List.foldl,
    Option.map_some', List.map, List.cons_append, List.nil_append]
  norm_num

/-- Witness for C2's amended statement: `L = [2]`, `R = [4]` has
channel medians 2 and 4 and mono component `(2+4)/2`. -/
theorem average_amplitudes_formula_witness :
    npMedian ([(2 : ℚ)].map (fun x => |x|)) = some 2 ∧
      npMedian ([(4 : ℚ)].map (fun x => |x|)) = some 4 ∧
      get_info_average_amplitudes ([2], [4]) =
        [some (round8 2), some (round8 4), some (round8 ((2 + 4) / 2))] := by
  have hL : npMedian ([(2 : ℚ)].map (fun x => |x|)) = some 2 := by
    norm_num [npMedian, sortRat, insertSorted]
  have hR : npMedian ([(4 : ℚ)].map (fun x => |x|)) = some 4 := by
    norm_num [npMedian, sortRat, insertSorted]
  exact ⟨hL, hR, average_amplitudes_formula [2] [4] 2 4 hL hR⟩

lemma npMedian_isSome_iff (l : List ℚ) : (npMedian l).isSome ↔ l ≠ [] := by
  unfold npMedian
  split_ifs with h0
  · simp [List.length_eq_zero.mp h0]
  · rw [List.length_eq_zero] at h0
    simp only [ne_eq, h0, not_false_iff, iff_true]
    by_cases hodd : l.length % 2 = 1
    · simp [hodd]
    · simp [hodd]

/-- C4 counterexample: on the empty batch the per-step analysis does
not fail with `InvalidAudioData` (no such error exists anywhere in the
code); it completes and yields a NaN average-amplitude triple. -/
theorem empty_batch_yields_nan_counterexample :
    get_info_average_amplitudes ([], []) = [none, none, none] := rfl

/-- C4 amended: the analysis defines and raises no `InvalidAudioData`
error.  On an empty batch it completes with NaN (undefined) average
amplitudes instead of failing; the amplitude triple is NaN-free
exactly when both channels of the batch are non-empty. -/
theorem amplitudes_defined_iff_nonempty (L R : List ℚ) :
    ((get_info_average_amplitudes (L, R)).all Option.isSome) = true ↔
      (L ≠ [] ∧ R ≠ []) := by
  have hL := npMedian_isSome_iff (L.map (fun x => |x|))
  have hR := npMedian_isSome_iff (R.map (fun x => |x|))
  simp only [ne_eq, List.map_eq_nil_iff] at hL hR
  simp only [get_info_average_amplitudes, nanSum, List.foldl, List.map,
    List.cons_append, List.nil_append, List.all_cons, List.all_nil,
    Bool.and_eq_true, Bool.and_true]
  cases hm1 : npMedian (L.map (fun x => |x|)) with
  | none =>
      rw [hm1] at hL
      simp only [Option.isSome_none] at hL
      constructor
      · intro h
        simp at h
      · intro h
        exact absurd (hL.mpr h.1) (by simp)
  | some m1 =>
      rw [hm1] at hL
      cases hm2 : npMedian (R.map (fun x => |x|)) with
      | none =>
          rw [hm2] at hR
          simp only [Option.isSome_none] at hR
          constructor
          · intro h
            simp at h
          · intro h
            exact absurd (hR.mpr h.2) (by simp)
      | some m2 =>
          rw [hm2] at hR
          simp only [Option.isSome_some, true_iff] at hL hR
          simp only [Option.map_some', Option.isSome_some]
          constructor
          · intro _
            exact ⟨hL, hR⟩
          · intro _
            simp

/-- C7: resampling with `new_sample_rate == original_sample_rate`
returns the input array exactly, for every data array, every rate and
every behaviour of the external sinc resampler. -/
theorem resample_same_rate_identity (sinc : List ℚ → ℚ → List ℚ)
    (data : List ℚ) (rate : ℚ) : resample sinc data rate rate = data := by
  simp [resample]

lemma pySlice_length (l : List ℚ) (s batch : ℕ) :
    (pySlice l s (s + batch)).length = min batch (l.length - s) := by
  simp [pySlice, Nat.add_sub_cancel_left]

lemma padded_slice_length (l : List ℚ) (s batch : ℕ) :
    (pySlice l s (s + batch) ++
      List.replicate (batch - (pySlice l s (s + batch)).length) 0).length = batch := by
  have h := pySlice_length l s batch
  simp only [List.length_append, List.length_replicate]
  omega

lemma padded_slice_getElem (l : List ℚ) (s batch i : ℕ) (hi : i < batch) :
    (pySlice l s (s + batch) ++
      List.replicate (batch - (pySlice l s (s + batch)).length) 0)[i]?
      = some (l.getD (s + i) 0) := by
  have hlen := pySlice_length l s batch
  rw [List.getElem?_append]
  by_cases hcase : i < (pySlice l s (s + batch)).length
  · rw [if_pos hcase]
    have hsi : s + i < l.length := by omega
    have hget : (pySlice l s (s + batch))[i]? = l[s + i]? := by
      simp only [pySlice, Nat.add_sub_cancel_left]
      rw [List.getElem?_take_of_lt hi, List.getElem?_drop]
    rw [hget, List.getElem?_eq_getElem hsi, List.getD_eq_getElem l 0 hsi]
  · rw [if_neg hcase]
    push_neg at hcase
    rw [List.getElem?_replicate, if_pos (by omega)]
    rw [List.getD_eq_default l 0 (by omega)]

/-- C9: slicing the decoded track at the sample index computed by
`MMVSkiaCore.run` (which equals `⌊step/fps * sample_rate⌋` for a
non-negative step) with `end_cut = start + batch_size` always yields
rows of exactly `batch_size` samples per channel; sample `i` of a
channel row is track sample `start + i` when that exists and `0`
(zero-fill) past the end of the track; and at `step = 0` the start is
sample `0`, so the slice covers samples `[0, batch_size)`. -/
theorem slice_audio_exact_batch (L R : List ℚ) (step batch : ℕ)
    (fps rate : ℚ) (s : ℕ) (hfps : 0 < fps) (hrate : 0 ≤ rate)
    (hs : s = this_time_in_samples step fps rate) :
    s = (⌊(step : ℚ) / fps * rate⌋).toNat ∧
      (∀ row ∈ slice_audio (L, R) s (s + batch) batch, row.length = batch) ∧
      (∀ i, i < batch →
        ((slice_audio (L, R) s (s + batch) batch).getD 0 [])[i]?
          = some (L.getD (s + i) 0)) ∧
      (∀ i, i < batch →
        ((slice_audio (L, R) s (s + batch) batch).getD 1 [])[i]?
          = some (R.getD (s + i) 0)) ∧
      (step = 0 → s = 0) := by
  have hnn : 0 ≤ (1 / fps) * (step : ℚ) := by positivity
  have hstart : s = (⌊(step : ℚ) / fps * rate⌋).toNat := by
    rw [hs]
    unfold this_time_in_samples pyInt
    rw [max_eq_left hnn, if_pos (mul_nonneg hnn hrate)]
    have harg : 1 / fps * (step : ℚ) * rate = (step : ℚ) / fps * rate := by
      ring
    rw [harg]
  refine ⟨hstart, ?_, ?_, ?_, ?_⟩
  · intro row hrow
    simp only [slice_audio, List.mem_cons, List.not_mem_nil, or_false] at hrow
    rcases hrow with hrow | hrow | hrow
    · rw [hrow]; exact padded_slice_length L s batch
    · rw [hrow]; exact padded_slice_length R s batch
    · rw [hrow]; exact List.length_replicate batch 0
  · intro i hi
    exact padded_slice_getElem L s batch i hi
  · intro i hi
    exact padded_slice_getElem R s batch i hi
  · intro hstep
    rw [hs, hstep]
    unfold this_time_in_samples pyInt
    norm_num

/-- Witness for C9: a 3-sample track sliced at `step = 2`, `fps = 1`,
`rate = 2`, `batch = 4` (entirely past the end of track). -/
theorem slice_audio_exact_batch_witness :
    this_time_in_samples 2 1 2 = (⌊(2 : ℚ) / 1 * 2⌋).toNat ∧
      (∀ row ∈ slice_audio ([1, 2, 3], [4, 5, 6])
          (this_time_in_samples 2 1 2) (this_time_in_samples 2 1 2 + 4) 4,
        row.length = 4) ∧
      (∀ i, i < 4 →
        ((slice_audio ([1, 2, 3], [4, 5, 6]) (this_time_in_samples 2 1 2)
            (this_time_in_samples 2 1 2 + 4) 4).getD 0 [])[i]?
          = some (List.getD [1, 2, 3] (this_time_in_samples 2 1 2 + i) 0)) ∧
      (∀ i, i < 4 →
        ((slice_audio ([1, 2, 3], [4, 5, 6]) (this_time_in_samples 2 1 2)
            (this_time_in_samples 2 1 2 + 4) 4).getD 1 [])[i]?
          = some (List.getD [4, 5, 6] (this_time_in_samples 2 1 2 + i) 0)) ∧
      (2 = 0 → this_time_in_samples 2 1 2 = 0) :=
  slice_audio_exact_batch [1, 2, 3] [4, 5, 6] 2 4 1 2
    (this_time_in_samples 2 1 2) (by norm_num) (by norm_num) rfl

/-- Witness for C5's amended statement at a concrete state. -/
theorem resubmit_replaces_buffered_frame_witness :
    dictGet (write_to_pipe (write_to_pipe (initPipeState ℕ) 5 7) 5 9).images_to_pipe 5
      = some 9 ∧
      (write_to_pipe (write_to_pipe (initPipeState ℕ) 5 7) 5 9).count
        = (write_to_pipe (initPipeState ℕ) 5 7).count ∧
      (write_to_pipe (write_to_pipe (initPipeState ℕ) 5 7) 5 9).written
        = (write_to_pipe (initPipeState ℕ) 5 7).written :=
  resubmit_replaces_buffered_frame (write_to_pipe (initPipeState ℕ) 5 7) 5 7 9 (by decide)

lemma optionFoldAppendOne {β : Type} (g : β → Option ℚ) :
    ∀ (l : List β) (acc : List ℚ),
      l.foldlM (fun a x => (g x).map (fun v => a ++ [v])) acc
        = (l.mapM g).map (fun vs => acc ++ vs) := by
  intro l
  induction l with
  | nil => intro acc; rw [List.foldlM_nil, List.mapM_nil]; simp
  | cons x xs ih =>
      intro acc
      rw [List.foldlM_cons, List.mapM_cons]
      cases hg : g x with
      | none => simp [hg]
      | some v =>
          simp only [hg, Option.map_some', Option.some_bind, Option.bind_eq_bind]
          rw [ih (acc ++ [v])]
          cases hm : xs.mapM g with
          | none => simp [hm]
          | some vs => simp [hm, List.append_assoc]

lemma optionFoldAppendMany {β : Type} (g : β → Option (List ℚ)) :
    ∀ (l : List β) (acc : List ℚ),
      l.foldlM (fun a x => (g x).map (fun v => a ++ v)) acc
        = (l.mapM g).map (fun vs => acc ++ vs.flatten) := by
  intro l
  induction l with
  | nil => intro acc; rw [List.foldlM_nil, List.mapM_nil]; simp
  | cons x xs ih =>
      intro acc
      rw [List.foldlM_cons, List.mapM_cons]
      cases hg : g x with
      | none => simp [hg]
      | some v =>
          simp only [hg, Option.map_some', Option.some_bind, Option.bind_eq_bind]
          rw [ih (acc ++ v)]
          cases hm : xs.mapM g with
          | none => simp [hm]
          | some vs => simp [hm, List.append_assoc]

/-- The accumulator loop of `get_info_on_audio_slice` computes the
channel-major nesting of per-(channel, band) magnitude groups. -/
lemma get_info_fft_eq_channel_major (sinc : List ℚ → ℚ → List ℚ)
    (bf : List ℚ → ℚ → ℚ → List ℚ × List ℚ)
    (piano_keys : List ℚ) (config : List BandConfig)
    (audio_slice : List ℚ × List ℚ) (original_sample_rate : ℚ) :
    get_info_fft sinc bf piano_keys config audio_slice original_sample_rate
      = spec_fft_channel_major sinc bf piano_keys config audio_slice
          original_sample_rate := by
  unfold get_info_fft spec_fft_channel_major
  have hinner :
      (fun (processed : List ℚ) (data : List ℚ) =>
        config.foldlM
          (fun processed band =>
            (list_items_in_between piano_keys band.start_freq band.end_freq).foldlM
              (fun processed freq =>
                (scaled_magnitude
                  (bf (resample sinc data original_sample_rate band.sample_rate)
                    band.sample_rate original_sample_rate) freq).map
                  (fun v => processed ++ [v]))
              processed)
          processed)
      = (fun processed data =>
          ((config.mapM
            (fun band =>
              band_magnitudes sinc bf piano_keys original_sample_rate data band)).map
            List.flatten).map (fun v => processed ++ v)) := by
    funext processed data
    have hband :
        (fun (processed : List ℚ) (band : BandConfig) =>
          (list_items_in_between piano_keys band.start_freq band.end_freq).foldlM
            (fun processed freq =>
              (scaled_magnitude
                (bf (resample sinc data original_sample_rate band.sample_rate)
                  band.sample_rate original_sample_rate) freq).map
                (fun v => processed ++ [v]))
            processed)
        = (fun processed band =>
            (band_magnitudes sinc bf piano_keys original_sample_rate data band).map
              (fun vs => processed ++ vs)) := by
      funext processed band
      exact optionFoldAppendOne _ _ processed
    rw [hband, optionFoldAppendMany
      (fun band => band_magnitudes sinc bf piano_keys original_sample_rate data band)
      config processed, Option.map_map]
    rfl
  rw [hinner, optionFoldAppendMany
    (fun data =>
      (List.mapM
        (fun band => band_magnitudes sinc bf piano_keys original_sample_rate data band)
        config).map List.flatten)
    [audio_slice.1, audio_slice.2] []]
  simp only [List.nil_append]

/-- C3 counterexample: with two bands on rate-matched data and a
two-bin FFT collaborator, the source's `fft` sequence (channel-major:
left channel's band 1 and band 2, then right channel's band 1 and
band 2) differs from the claimed band-major grouping (both channels of
band 1, then both channels of band 2). -/
theorem fft_grouping_band_major_counterexample :
    get_info_fft (fun data _ => data)
        (fun data _ _ => ([100, 1000], [data.headD 0, data.headD 0 * 2]))
        [100, 1000] [⟨48000, 50, 500⟩, ⟨48000, 500, 2000⟩]
        ([1], [3]) 48000
      ≠ spec_fft_band_major (fun data _ => data)
        (fun data _ _ => ([100, 1000], [data.headD 0, data.headD 0 * 2]))
        [100, 1000] [⟨48000, 50, 500⟩, ⟨48000, 500, 2000⟩]
        ([1], [3]) 48000 := by
  norm_num [get_info_fft, spec_fft_band_major, band_magnitudes, scaled_magnitude,
    list_items_in_between, resample, find_nearest, npArgmin,
    value_on_line_of_two_points, List.foldlM_cons, List.foldlM_nil,
    List.mapM_cons, List.mapM_nil, List.mapM.loop]

/-- C3 amended: the `fft` sequence groups the scaled magnitudes with
the channel as the outer grouping (left channel first, then right) and
the band in declaration order as the inner grouping — the transpose of
the claimed order. -/
theorem fft_grouping_is_channel_major (sinc : List ℚ → ℚ → List ℚ)
    (bf : List ℚ → ℚ → ℚ → List ℚ × List ℚ)
    (piano_keys : List ℚ) (config : List BandConfig)
    (audio_slice : List ℚ × List ℚ) (original_sample_rate : ℚ) :
    get_info_fft sinc bf piano_keys config audio_slice original_sample_rate
      = spec_fft_channel_major sinc bf piano_keys config audio_slice
          original_sample_rate :=
  get_info_fft_eq_channel_major sinc bf piano_keys config audio_slice
    original_sample_rate

lemma mapM_some_length {β γ : Type} (g : β → Option γ) :
    ∀ (l : List β) (out : List γ), l.mapM g = some out → out.length = l.length := by
  intro l
  induction l with
  | nil =>
      intro out h
      simp only [List.mapM_nil, Option.pure_def, Option.some_inj] at h
      rw [← h]
      rfl
  | cons x xs ih =>
      intro out h
      rw [List.mapM_cons] at h
      cases hg : g x with
      | none => rw [hg] at h; simp at h
      | some v =>
          rw [hg] at h
          cases hm : xs.mapM g with
          | none => rw [hm] at h; simp at h
          | some vs =>
              rw [hm] at h
              simp only [Option.pure_def, Option.some_bind, Option.bind_eq_bind,
                Option.some_inj] at h
              rw [← h]
              simp [ih vs hm]

lemma bands_flatten_length (sinc : List ℚ → ℚ → List ℚ)
    (bf : List ℚ → ℚ → ℚ → List ℚ × List ℚ)
    (piano_keys : List ℚ) (original_sample_rate : ℚ) (data : List ℚ) :
    ∀ (config : List BandConfig) (groups : List (List ℚ)),
      config.mapM
          (fun band =>
            band_magnitudes sinc bf piano_keys original_sample_rate data band)
        = some groups →
      groups.flatten.length
        = (config.map
            (fun band =>
              (list_items_in_between piano_keys band.start_freq
                band.end_freq).length)).sum := by
  intro config
  induction config with
  | nil =>
      intro groups h
      simp only [List.mapM_nil, Option.pure_def, Option.some_inj] at h
      rw [← h]
      rfl
  | cons band bands ih =>
      intro groups h
      rw [List.mapM_cons] at h
      cases hg : band_magnitudes sinc bf piano_keys original_sample_rate data band with
      | none => rw [hg] at h; simp at h
      | some v =>
          rw [hg] at h
          cases hm : bands.mapM
              (fun band =>
                band_magnitudes sinc bf piano_keys original_sample_rate data band) with
          | none => rw [hm] at h; simp at h
          | some vs =>
              rw [hm] at h
              simp only [Option.pure_def, Option.some_bind, Option.bind_eq_bind,
                Option.some_inj] at h
              rw [← h]
              simp only [List.flatten_cons, List.length_append, List.map_cons,
                List.sum_cons, ih vs hm]
              have hv : v.length
                  = (list_items_in_between piano_keys band.start_freq
                      band.end_freq).length :=
                mapM_some_length _ _ v hg
              rw [hv]

/-- C6: whenever the analysis produces an `fft` sequence, its length
is the number of piano-key frequencies inside each band's
`[start_freq, end_freq]` range, summed over the configured bands, times
the number of channels (2) — independent of the audio data, of the
source sample rate and of the behaviour of the resampler and FFT. -/
theorem fft_length_depends_only_on_config (sinc : List ℚ → ℚ → List ℚ)
    (bf : List ℚ → ℚ → ℚ → List ℚ × List ℚ)
    (piano_keys : List ℚ) (config : List BandConfig)
    (audio_slice : List ℚ × List ℚ) (original_sample_rate : ℚ)
    (out : List ℚ)
    (h : get_info_fft sinc bf piano_keys config audio_slice original_sample_rate
      = some out) :
    out.length
      = 2 * (config.map
          (fun band =>
            (list_items_in_between piano_keys band.start_freq
              band.end_freq).length)).sum := by
  rw [get_info_fft_eq_channel_major] at h
  unfold spec_fft_channel_major at h
  cases hm : [audio_slice.1, audio_slice.2].mapM
      (fun data =>
        (List.mapM
          (fun band =>
            band_magnitudes sinc bf piano_keys original_sample_rate data band)
          config).map List.flatten) with
  | none => rw [hm] at h; simp at h
  | some chans =>
      rw [hm] at h
      simp only [Option.map_some', Option.some_inj] at h
      rw [List.mapM_cons, List.mapM_cons, List.mapM_nil] at hm
      cases h1 : (List.mapM
          (fun band =>
            band_magnitudes sinc bf piano_keys original_sample_rate
              audio_slice.1 band) config) with
      | none => rw [h1] at hm; simp at hm
      | some g1 =>
          rw [h1] at hm
          cases h2 : (List.mapM
              (fun band =>
                band_magnitudes sinc bf piano_keys original_sample_rate
                  audio_slice.2 band) config) with
          | none => rw [h2] at hm; simp at hm
          | some g2 =>
              rw [h2] at hm
              simp only [Option.map_some', Option.pure_def, Option.some_bind,
                Option.bind_eq_bind, Option.some_inj] at hm
              rw [← hm] at h
              rw [← h]
              simp only [List.flatten_cons, List.flatten_nil, List.length_append,
                List.append_nil]
              rw [bands_flatten_length sinc bf piano_keys original_sample_rate
                audio_slice.1 config g1 h1]
              rw [bands_flatten_length sinc bf piano_keys original_sample_rate
                audio_slice.2 config g2 h2]
              ring

/-- Witness for C6: a two-band configuration over a two-key table
yields an `fft` of length `2 × (1 + 1) = 4` on a concrete batch. -/
theorem fft_length_depends_only_on_config_witness :
    get_info_fft (fun data _ => data) (fun _ _ _ => ([20], [0]))
        [100, 1000] [⟨48000, 50, 500⟩, ⟨48000, 500, 2000⟩] ([1], [3]) 48000
      = some [0, 0, 0, 0] ∧
      ([(0 : ℚ), 0, 0, 0]).length
        = 2 * (([⟨48000, 50, 500⟩, ⟨48000, 500, 2000⟩] : List BandConfig).map
            (fun band =>
              (list_items_in_between [100, 1000] band.start_freq
                band.end_freq).length)).sum := by
  have hEval : get_info_fft (fun data _ => data) (fun _ _ _ => ([20], [0]))
      [100, 1000] [⟨48000, 50, 500⟩, ⟨48000, 500, 2000⟩] ([1], [3]) 48000
      = some [0, 0, 0, 0] := by
    norm_num [get_info_fft, scaled_magnitude, list_items_in_between, resample,
      find_nearest, npArgmin, value_on_line_of_two_points, List.foldlM_cons,
      List.foldlM_nil]
  exact ⟨hEval,
    fft_length_depends_only_on_config (fun data _ => data) (fun _ _ _ => ([20], [0]))
      [100, 1000] [⟨48000, 50, 500⟩, ⟨48000, 500, 2000⟩] ([1], [3]) 48000
      [0, 0, 0, 0] hEval⟩

end MMV
